import Mathlib

/-!
Verification development for the `send_ai_daily` RSS-digest pipeline
(`src/send_ai_daily.py`).  The Python source is shallowly embedded:
JSON-carrying dictionaries become an inductive `JVal` / assoc-list `JObj`
model with Python dict semantics (first-occurrence lookup, in-place update,
append on fresh keys), Python exceptions become `Except`, Python sets become
`Finset String`, and external collaborators (hashlib, dateutil parsing, the
feed parser, the HTTP transport, SHA-256) are passed in as explicit function
parameters, exactly at the boundaries at which the source calls them.
-/

/-! ## Constants (configuration section of the source) -/

def MAX_CANDIDATES : Nat := 30

def TOP_N : Nat := 3

def HOURS_WINDOW : Int := 48

/-! ## JSON model

Python values flowing through `json.loads` / dict literals in the source are
one of: `None`, booleans, numbers, strings, lists, objects.  JSON numbers are
modelled exactly as rationals. -/

inductive JVal where
  | null : JVal
  | bool (b : Bool) : JVal
  | num (q : Rat) : JVal
  | str (s : String) : JVal
  | arr (xs : List JVal) : JVal
  | obj (fields : List (String × JVal)) : JVal

abbrev JObj := List (String × JVal)

/-- Python truthiness (`not x`) on JSON-shaped values: `None`, `False`, `0`,
`""`, `[]`, `{}` are falsy. -/
def JVal.falsy : JVal → Bool
  | .null => true
  | .bool b => !b
  | .num q => q == 0
  | .str s => s == ""
  | .arr xs => xs.isEmpty
  | .obj o => o.isEmpty

/-- Dict lookup `d[k]` / `d.get(k)`: first matching key (Python dicts have
unique keys; on lists that respect that invariant this is *the* binding). -/
def jget? (k : String) : JObj → Option JVal
  | [] => none
  | (k', v) :: rest => if k' = k then some v else jget? k rest

/-- Dict membership `k in d`. -/
def jmem (k : String) : JObj → Bool
  | [] => false
  | (k', _) :: rest => k' == k || jmem k rest

/-- Dict update `d[k] = v`: replaces the value in place when the key exists,
appends the new binding at the end otherwise (Python insertion order). -/
def jset (k : String) (v : JVal) : JObj → JObj
  | [] => [(k, v)]
  | (k', v') :: rest => if k' = k then (k, v) :: rest else (k', v') :: jset k v rest

theorem jmem_eq_isSome (k : String) (o : JObj) : jmem k o = (jget? k o).isSome := by
  induction o with
  | nil => rfl
  | cons kv rest ih =>
    obtain ⟨k', v⟩ := kv
    by_cases h : k' = k
    · simp [jmem, jget?, h]
    · simp [jmem, jget?, h, ih]

theorem jget_jset_self (k : String) (v : JVal) (o : JObj) :
    jget? k (jset k v o) = some v := by
  induction o with
  | nil => simp [jset, jget?]
  | cons kv rest ih =>
    obtain ⟨k', v'⟩ := kv
    by_cases h : k' = k
    · simp [jset, jget?, h]
    · simp [jset, jget?, h, ih]

theorem jget_jset_ne (k k' : String) (v : JVal) (o : JObj) (h : k' ≠ k) :
    jget? k (jset k' v o) = jget? k o := by
  induction o with
  | nil => simp [jset, jget?, h]
  | cons kv rest ih =>
    obtain ⟨k'', v''⟩ := kv
    by_cases h2 : k'' = k'
    · subst h2
      simp [jset, jget?, h]
    · by_cases h3 : k'' = k
      · simp [jset, jget?, h2, h3, Ne.symm h]
      · simp [jset, jget?, h2, h3, ih]

theorem jset_self (k : String) (v : JVal) (o : JObj) (h : jget? k o = some v) :
    jset k v o = o := by
  induction o with
  | nil => simp [jget?] at h
  | cons kv rest ih =>
    obtain ⟨k', v'⟩ := kv
    by_cases h2 : k' = k
    · subst h2
      simp [jget?] at h
      simp [jset, h]
    · simp [jget?, h2] at h
      simp [jset, h2, ih h]

/-- Keys with their first-occurrence values: if the key list is duplicate-free
(always true for objects coming from Python dicts), a listed binding is the
lookup result. -/
theorem jget_of_mem_nodup (o : JObj) (kv : String × JVal)
    (hnd : (o.map Prod.fst).Nodup) (hm : kv ∈ o) : jget? kv.1 o = some kv.2 := by
  induction o with
  | nil => cases hm
  | cons hd rest ih =>
    rcases List.mem_cons.mp hm with h | h
    · subst h
      simp [jget?]
    · have hne : hd.1 ≠ kv.1 := by
        intro he
        have : kv.1 ∈ rest.map Prod.fst := List.mem_map.mpr ⟨kv, h, rfl⟩
        rw [List.map_cons] at hnd
        exact (List.nodup_cons.mp hnd).1 (he ▸ this)
      have hnd' : (rest.map Prod.fst).Nodup := by
        rw [List.map_cons] at hnd
        exact (List.nodup_cons.mp hnd).2
      simp [jget?, hne, ih hnd' h]

/-! ## Report validator (`validate_and_fix_report`, source lines 320-400)

The default report is a function of "today" (the source computes
`datetime.now(...)` for the default `date`); everything else is literal.
A raised Python `TypeError` is modelled as `Except.error "TypeError"`. -/

def defaultBusiness : JObj :=
  [("boss", .str "暂无明显影响"), ("market", .str "暂无明显影响"), ("pm", .str "暂无明显影响")]

def defaultTech : JObj :=
  [("algo", .str "暂无明显影响"), ("frontend", .str "暂无明显影响"),
   ("backend", .str "暂无明显影响"), ("qa", .str "暂无明显影响")]

def defaultDelivery : JObj :=
  [("ui", .str "暂无明显影响"), ("presales", .str "暂无明显影响"),
   ("surveying", .str "暂无明显影响")]

def defaultImpacts : JObj :=
  [("business", .obj defaultBusiness), ("tech", .obj defaultTech),
   ("delivery", .obj defaultDelivery)]

def defaultDecision : JObj :=
  [("level", .str "持续观察"), ("reason", .str "待进一步评估")]

def defaultAction : JObj :=
  [("label", .str "👀持续观察"), ("detail", .str "建议：持续关注相关动态")]

def default_report (today : String) : JObj :=
  [("date", .str today),
   ("theme", .str "AI 技术动态"),
   ("decision", .obj defaultDecision),
   ("core_changes", .arr []),
   ("related", .arr []),
   ("impacts", .obj defaultImpacts),
   ("action", .obj defaultAction),
   ("sources", .arr [])]

/-- The `business` / `tech` / `delivery` clusters with their role defaults,
in the iteration order of the source's `for group in [...]` loop. -/
def impactGroups : List (String × JObj) :=
  [("business", defaultBusiness), ("tech", defaultTech), ("delivery", defaultDelivery)]

def topKeys : List String :=
  ["date", "theme", "decision", "core_changes", "related", "impacts", "action", "sources"]

/-- One iteration of `for key, default_value in default_report.items(): if key
not in report: report[key] = default_value`. -/
def mergeStep (r : JObj) (kv : String × JVal) : JObj :=
  if jmem kv.1 r then r else jset kv.1 kv.2 r

def mergeDefaults (today : String) (r : JObj) : JObj :=
  (default_report today).foldl mergeStep r

/-- One iteration of the role-repair loop: `if role not in group_obj or not
group_obj[role]: group_obj[role] = default_text`. -/
def roleStep (go : JObj) (rd : String × JVal) : JObj :=
  match jget? rd.1 go with
  | none => jset rd.1 rd.2 go
  | some v => if v.falsy then jset rd.1 rd.2 go else go

def fixRoles (defG : JObj) (go : JObj) : JObj :=
  defG.foldl roleStep go

/-- One iteration of the cluster-repair loop.  When the cluster value is
present but not a dict, every Python path raises `TypeError`: for a
string/list value either the `role not in ...` membership test succeeds and
the subsequent item assignment raises, or the `group_obj[role]` subscript in
the truthiness test raises; for a number/bool/None value the membership test
itself raises. -/
def groupStep (imp : JObj) (gd : String × JObj) : Except String JObj :=
  if jmem gd.1 imp = false then .ok (jset gd.1 (.obj gd.2) imp)
  else
    match jget? gd.1 imp with
    | some (.obj go) => .ok (jset gd.1 (.obj (fixRoles gd.2 go)) imp)
    | _ => .error "TypeError"

def fixGroupsAux : List (String × JObj) → JObj → Except String JObj
  | [], imp => .ok imp
  | gd :: rest, imp =>
    match groupStep imp gd with
    | .ok imp' => fixGroupsAux rest imp'
    | .error e => .error e

/-- The `if "impacts" in report:` block.  A non-dict `impacts` value raises on
the first cluster operation (see `groupStep`). -/
def fixImpacts (r : JObj) : Except String JObj :=
  if jmem "impacts" r = false then .ok r
  else
    match jget? "impacts" r with
    | some (.obj imp) =>
      match fixGroupsAux impactGroups imp with
      | .ok imp' => .ok (jset "impacts" (.obj imp') r)
      | .error e => .error e
    | _ => .error "TypeError"

def fixDecision (r : JObj) : JObj :=
  match jget? "decision" r with
  | some (.obj d) =>
    jset "decision"
      (.obj (mergeStep (mergeStep d ("level", .str "持续观察")) ("reason", .str "待进一步评估"))) r
  | _ => jset "decision" (.obj defaultDecision) r

def truncCoreChanges (r : JObj) : JObj :=
  match jget? "core_changes" r with
  | some (.arr xs) => jset "core_changes" (.arr (xs.take 2)) r
  | _ => r

def fixRelated (r : JObj) : JObj :=
  match jget? "related" r with
  | some (.arr xs) => jset "related" (.arr (xs.take 2)) r
  | _ => jset "related" (.arr []) r

def truncSources (r : JObj) : JObj :=
  match jget? "sources" r with
  | some (.arr xs) => jset "sources" (.arr (xs.take 3)) r
  | _ => r

def fixAction (r : JObj) : JObj :=
  match jget? "action" r with
  | some (.obj a) =>
    jset "action"
      (.obj (mergeStep (mergeStep a ("label", .str "👀持续观察")) ("detail", .str "建议：持续关注相关动态"))) r
  | _ => jset "action" (.obj defaultAction) r

/-- The four stages after the impacts repair (they cannot raise): decision
repair, `core_changes` truncation, `related` truncation-or-reset, `sources`
truncation, action repair, in source order. -/
def fixTail (r : JObj) : JObj :=
  fixAction (truncSources (fixRelated (truncCoreChanges (fixDecision r))))

def validate_and_fix_report (today : String) (report : JObj) : Except String JObj :=
  match fixImpacts (mergeDefaults today report) with
  | .ok r2 => .ok (fixTail r2)
  | .error e => .error e

/-! ## Lemmas about the default-merge pass -/

theorem mergeStep_get_ne (r : JObj) (kv : String × JVal) (k : String) (h : kv.1 ≠ k) :
    jget? k (mergeStep r kv) = jget? k r := by
  unfold mergeStep
  by_cases hm : jmem kv.1 r
  · simp [hm]
  · simp [hm, jget_jset_ne _ _ _ _ h]

theorem mergeStep_get_self (r : JObj) (kv : String × JVal) :
    jget? kv.1 (mergeStep r kv) = some ((jget? kv.1 r).getD kv.2) := by
  unfold mergeStep
  rcases h : jget? kv.1 r with _ | v
  · have : jmem kv.1 r = false := by rw [jmem_eq_isSome, h]; rfl
    simp [this, jget_jset_self]
  · have : jmem kv.1 r = true := by rw [jmem_eq_isSome, h]; rfl
    simp [this, h]

theorem mergeStep_get_self_pair (r : JObj) (k : String) (v : JVal) :
    jget? k (mergeStep r (k, v)) = some ((jget? k r).getD v) :=
  mergeStep_get_self r (k, v)

theorem mergeStep_get_ne_pair (r : JObj) (k1 k : String) (v : JVal) (h : k1 ≠ k) :
    jget? k (mergeStep r (k1, v)) = jget? k r :=
  mergeStep_get_ne r (k1, v) k h

theorem merge_get_none (ks : List (String × JVal)) (r : JObj) (k : String)
    (h : ∀ kv ∈ ks, kv.1 ≠ k) :
    jget? k (ks.foldl mergeStep r) = jget? k r := by
  induction ks generalizing r with
  | nil => rfl
  | cons kv rest ih =>
    rw [List.foldl_cons, ih _ (fun x hx => h x (List.mem_cons_of_mem _ hx)),
      mergeStep_get_ne _ _ _ (h kv (List.mem_cons_self _ _))]

theorem merge_get_mem (ks : List (String × JVal)) (r : JObj) (kv : String × JVal)
    (hnd : (ks.map Prod.fst).Nodup) (hm : kv ∈ ks) :
    jget? kv.1 (ks.foldl mergeStep r) = some ((jget? kv.1 r).getD kv.2) := by
  induction ks generalizing r with
  | nil => cases hm
  | cons hd rest ih =>
    rw [List.map_cons, List.nodup_cons] at hnd
    rcases List.mem_cons.mp hm with h | h
    · subst h
      have hnotin : ∀ x ∈ rest, x.1 ≠ kv.1 := by
        intro x hx he
        exact hnd.1 (he ▸ List.mem_map.mpr ⟨x, hx, rfl⟩)
      rw [List.foldl_cons, merge_get_none _ _ _ hnotin, mergeStep_get_self]
    · have hne : hd.1 ≠ kv.1 := by
        intro he
        exact hnd.1 (he ▸ List.mem_map.mpr ⟨kv, h, rfl⟩)
      rw [List.foldl_cons, ih _ hnd.2 h, mergeStep_get_ne _ _ _ hne]

theorem merge_noop (ks : List (String × JVal)) (r : JObj)
    (h : ∀ kv ∈ ks, jmem kv.1 r = true) :
    ks.foldl mergeStep r = r := by
  induction ks with
  | nil => rfl
  | cons kv rest ih =>
    have hstep : mergeStep r kv = r := by
      unfold mergeStep
      simp [h kv (List.mem_cons_self _ _)]
    rw [List.foldl_cons, hstep, ih (fun x hx => h x (List.mem_cons_of_mem _ hx))]

theorem default_report_keys (t : String) : (default_report t).map Prod.fst = topKeys := rfl

theorem topKeys_nodup : topKeys.Nodup := by decide

theorem mem_default_report_date (t : String) : ("date", JVal.str t) ∈ default_report t :=
  .head _

theorem mem_default_report_theme (t : String) :
    ("theme", JVal.str "AI 技术动态") ∈ default_report t :=
  .tail _ (.head _)

theorem mem_default_report_decision (t : String) :
    ("decision", JVal.obj defaultDecision) ∈ default_report t :=
  .tail _ (.tail _ (.head _))

theorem mem_default_report_core (t : String) :
    ("core_changes", JVal.arr []) ∈ default_report t :=
  .tail _ (.tail _ (.tail _ (.head _)))

theorem mem_default_report_related (t : String) :
    ("related", JVal.arr []) ∈ default_report t :=
  .tail _ (.tail _ (.tail _ (.tail _ (.head _))))

theorem mem_default_report_impacts (t : String) :
    ("impacts", JVal.obj defaultImpacts) ∈ default_report t :=
  .tail _ (.tail _ (.tail _ (.tail _ (.tail _ (.head _)))))

theorem mem_default_report_action (t : String) :
    ("action", JVal.obj defaultAction) ∈ default_report t :=
  .tail _ (.tail _ (.tail _ (.tail _ (.tail _ (.tail _ (.head _))))))

theorem mem_default_report_sources (t : String) :
    ("sources", JVal.arr []) ∈ default_report t :=
  .tail _ (.tail _ (.tail _ (.tail _ (.tail _ (.tail _ (.tail _ (.head _)))))))

theorem mergeDefaults_get (t : String) (r : JObj) (kv : String × JVal)
    (hm : kv ∈ default_report t) :
    jget? kv.1 (mergeDefaults t r) = some ((jget? kv.1 r).getD kv.2) := by
  apply merge_get_mem
  · rw [default_report_keys]
    exact topKeys_nodup
  · exact hm

/-! ## Lemmas about the role / cluster repair passes -/

/-- Every role key of the cluster's default dict is bound, in `go`, to a
truthy value. -/
def RolesGood (defG : JObj) (go : JObj) : Prop :=
  ∀ rd ∈ defG, ∃ v, jget? rd.1 go = some v ∧ v.falsy = false

theorem roleStep_get_ne (go : JObj) (rd : String × JVal) (k : String) (h : rd.1 ≠ k) :
    jget? k (roleStep go rd) = jget? k go := by
  unfold roleStep
  rcases hg : jget? rd.1 go with _ | v
  · exact jget_jset_ne _ _ _ _ h
  · by_cases hf : v.falsy
    · simp [hf, jget_jset_ne _ _ _ _ h]
    · simp [hf]

theorem roleStep_self (go : JObj) (rd : String × JVal) (h : rd.2.falsy = false) :
    ∃ v, jget? rd.1 (roleStep go rd) = some v ∧ v.falsy = false := by
  unfold roleStep
  rcases hg : jget? rd.1 go with _ | v
  · exact ⟨rd.2, jget_jset_self _ _ _, h⟩
  · by_cases hf : v.falsy
    · simp only [hf, if_true]
      exact ⟨rd.2, jget_jset_self _ _ _, h⟩
    · simp only [hf, if_false]
      exact ⟨v, hg, Bool.not_eq_true _ ▸ hf⟩

theorem fixRoles_get_ne (defG : JObj) (go : JObj) (k : String)
    (h : ∀ rd ∈ defG, rd.1 ≠ k) :
    jget? k (fixRoles defG go) = jget? k go := by
  unfold fixRoles
  induction defG generalizing go with
  | nil => rfl
  | cons rd rest ih =>
    rw [List.foldl_cons, ih _ (fun x hx => h x (List.mem_cons_of_mem _ hx)),
      roleStep_get_ne _ _ _ (h rd (List.mem_cons_self _ _))]

theorem fixRoles_good (defG : JObj) (go : JObj)
    (hnd : (defG.map Prod.fst).Nodup) (hdef : ∀ rd ∈ defG, rd.2.falsy = false) :
    RolesGood defG (fixRoles defG go) := by
  unfold RolesGood
  induction defG generalizing go with
  | nil => intro rd hm; cases hm
  | cons hd rest ih =>
    rw [List.map_cons, List.nodup_cons] at hnd
    intro rd hm
    rcases List.mem_cons.mp hm with h | h
    · subst h
      have hnotin : ∀ x ∈ rest, x.1 ≠ rd.1 := by
        intro x hx he
        exact hnd.1 (he ▸ List.mem_map.mpr ⟨x, hx, rfl⟩)
      unfold fixRoles
      rw [List.foldl_cons]
      have := fixRoles_get_ne rest (roleStep go rd) rd.1 hnotin
      unfold fixRoles at this
      rw [this]
      exact roleStep_self _ _ (hdef rd (List.mem_cons_self _ _))
    · have := ih (roleStep go hd) hnd.2 (fun x hx => hdef x (List.mem_cons_of_mem _ hx)) rd h
      unfold fixRoles at this ⊢
      rw [List.foldl_cons]
      exact this

theorem fixRoles_noop (defG : JObj) (go : JObj) (h : RolesGood defG go) :
    fixRoles defG go = go := by
  unfold fixRoles
  induction defG with
  | nil => rfl
  | cons rd rest ih =>
    obtain ⟨v, hv, hf⟩ := h rd (List.mem_cons_self _ _)
    have hstep : roleStep go rd = go := by
      simp [roleStep, hv, hf]
    rw [List.foldl_cons, hstep, ih (fun x hx => h x (List.mem_cons_of_mem _ hx))]

/-- Every cluster key is bound to a dict whose roles are all truthy. -/
def GroupsGoodOn (gds : List (String × JObj)) (imp : JObj) : Prop :=
  ∀ gd ∈ gds, ∃ go, jget? gd.1 imp = some (.obj go) ∧ RolesGood gd.2 go

def GroupsGood (imp : JObj) : Prop := GroupsGoodOn impactGroups imp

/-- Cluster values that are dicts whenever present (the shapes on which the
Python cluster loop cannot raise). -/
def GroupsWTOn (gds : List (String × JObj)) (imp : JObj) : Prop :=
  ∀ gd ∈ gds, ∀ w, jget? gd.1 imp = some w → ∃ go, w = JVal.obj go

theorem groupStep_ok_get_ne (imp : JObj) (gd : String × JObj) (imp1 : JObj) (k : String)
    (hne : gd.1 ≠ k) (h : groupStep imp gd = .ok imp1) :
    jget? k imp1 = jget? k imp := by
  unfold groupStep at h
  split at h
  · injection h with h1
    subst h1
    exact jget_jset_ne _ _ _ _ hne
  · split at h
    · injection h with h1
      subst h1
      exact jget_jset_ne _ _ _ _ hne
    · simp at h

theorem groupStep_ok_self (imp : JObj) (gd : String × JObj) (imp1 : JObj)
    (hnd : (gd.2.map Prod.fst).Nodup) (hdef : ∀ rd ∈ gd.2, rd.2.falsy = false)
    (h : groupStep imp gd = .ok imp1) :
    ∃ go, jget? gd.1 imp1 = some (JVal.obj go) ∧ RolesGood gd.2 go := by
  unfold groupStep at h
  split at h
  · injection h with h1
    subst h1
    refine ⟨gd.2, jget_jset_self _ _ _, ?_⟩
    intro rd hm
    exact ⟨rd.2, jget_of_mem_nodup _ _ hnd hm, hdef rd hm⟩
  · split at h
    · rename_i go hg
      injection h with h1
      subst h1
      exact ⟨fixRoles gd.2 go, jget_jset_self _ _ _, fixRoles_good _ _ hnd hdef⟩
    · simp at h

theorem groupStep_ok_of_wt (imp : JObj) (gd : String × JObj)
    (hwt : ∀ w, jget? gd.1 imp = some w → ∃ go, w = JVal.obj go) :
    ∃ imp1, groupStep imp gd = .ok imp1 := by
  unfold groupStep
  by_cases hm : jmem gd.1 imp = false
  · rw [if_pos hm]
    exact ⟨_, rfl⟩
  · rw [if_neg hm]
    have hsome : (jget? gd.1 imp).isSome := by
      rw [← jmem_eq_isSome]
      exact eq_true_of_ne_false hm
    rcases hg : jget? gd.1 imp with _ | w
    · rw [hg] at hsome
      cases hsome
    · obtain ⟨go, rfl⟩ := hwt w hg
      exact ⟨_, rfl⟩

theorem groupStep_noop (imp : JObj) (gd : String × JObj) (go : JObj)
    (hg : jget? gd.1 imp = some (JVal.obj go)) (hgood : RolesGood gd.2 go) :
    groupStep imp gd = .ok imp := by
  have hm : jmem gd.1 imp = true := by
    rw [jmem_eq_isSome, hg]
    rfl
  unfold groupStep
  rw [hm]
  simp only [Bool.true_eq_false, if_false]
  rw [hg]
  show Except.ok (jset gd.1 (JVal.obj (fixRoles gd.2 go)) imp) = Except.ok imp
  rw [fixRoles_noop _ _ hgood, jset_self _ _ _ hg]

theorem fixGroupsAux_ok_of_wt (gds : List (String × JObj)) (imp : JObj)
    (hnd : (gds.map Prod.fst).Nodup) (hwt : GroupsWTOn gds imp) :
    ∃ imp', fixGroupsAux gds imp = .ok imp' := by
  induction gds generalizing imp with
  | nil => exact ⟨imp, rfl⟩
  | cons gd rest ih =>
    rw [List.map_cons, List.nodup_cons] at hnd
    have hkeys : ∀ x ∈ rest, x.1 ≠ gd.1 := by
      intro x hx he
      exact hnd.1 (he ▸ List.mem_map.mpr ⟨x, hx, rfl⟩)
    obtain ⟨imp1, hstep⟩ := groupStep_ok_of_wt imp gd (hwt gd (List.mem_cons_self _ _))
    have hwt1 : GroupsWTOn rest imp1 := by
      intro x hx w hw
      have hpres := groupStep_ok_get_ne imp gd imp1 x.1 (hkeys x hx).symm hstep
      exact hwt x (List.mem_cons_of_mem _ hx) w (hpres ▸ hw)
    obtain ⟨imp', h'⟩ := ih imp1 hnd.2 hwt1
    refine ⟨imp', ?_⟩
    unfold fixGroupsAux
    rw [hstep]
    exact h'

theorem fixGroupsAux_props (gds : List (String × JObj)) (imp imp' : JObj)
    (hnd : (gds.map Prod.fst).Nodup)
    (hinner : ∀ gd ∈ gds, (gd.2.map Prod.fst).Nodup ∧ ∀ rd ∈ gd.2, rd.2.falsy = false)
    (h : fixGroupsAux gds imp = .ok imp') :
    GroupsGoodOn gds imp' ∧ ∀ k, (∀ gd ∈ gds, gd.1 ≠ k) → jget? k imp' = jget? k imp := by
  induction gds generalizing imp with
  | nil =>
    injection h with h1
    subst h1
    exact ⟨fun gd hm => absurd hm (List.not_mem_nil _), fun k _ => rfl⟩
  | cons gd rest ih =>
    rw [List.map_cons, List.nodup_cons] at hnd
    have hkeys : ∀ x ∈ rest, x.1 ≠ gd.1 := by
      intro x hx he
      exact hnd.1 (he ▸ List.mem_map.mpr ⟨x, hx, rfl⟩)
    unfold fixGroupsAux at h
    rcases hstep : groupStep imp gd with e | imp1
    · rw [hstep] at h
      simp at h
    · rw [hstep] at h
      obtain ⟨hgood, hpres⟩ := ih imp1 hnd.2 (fun x hx => hinner x (List.mem_cons_of_mem _ hx)) h
      constructor
      · intro x hx
        rcases List.mem_cons.mp hx with hx1 | hx1
        · subst hx1
          obtain ⟨hnd2, hdef2⟩ := hinner x (List.mem_cons_self _ _)
          obtain ⟨go, hgo, hr⟩ := groupStep_ok_self imp x imp1 hnd2 hdef2 hstep
          refine ⟨go, ?_, hr⟩
          rw [hpres x.1 (fun y hy => hkeys y hy), hgo]
        · exact hgood x hx1
      · intro k hk
        rw [hpres k (fun y hy => hk y (List.mem_cons_of_mem _ hy)),
          groupStep_ok_get_ne imp gd imp1 k (hk gd (List.mem_cons_self _ _)) hstep]

theorem fixGroupsAux_noop (gds : List (String × JObj)) (imp : JObj)
    (h : GroupsGoodOn gds imp) :
    fixGroupsAux gds imp = .ok imp := by
  induction gds with
  | nil => rfl
  | cons gd rest ih =>
    obtain ⟨go, hg, hgood⟩ := h gd (List.mem_cons_self _ _)
    unfold fixGroupsAux
    rw [groupStep_noop imp gd go hg hgood]
    exact ih (fun x hx => h x (List.mem_cons_of_mem _ hx))

/-! ## Lemmas about the remaining validator stages -/

theorem fixImpacts_ok_of_wt (r : JObj)
    (hwt : ∀ w, jget? "impacts" r = some w →
      ∃ imp, w = JVal.obj imp ∧ GroupsWTOn impactGroups imp) :
    ∃ r', fixImpacts r = .ok r' := by
  unfold fixImpacts
  by_cases hm : jmem "impacts" r = false
  · rw [if_pos hm]
    exact ⟨r, rfl⟩
  · rw [if_neg hm]
    have hsome : (jget? "impacts" r).isSome := by
      rw [← jmem_eq_isSome]
      exact eq_true_of_ne_false hm
    rcases hg : jget? "impacts" r with _ | w
    · rw [hg] at hsome
      cases hsome
    · obtain ⟨imp, rfl, hwt2⟩ := hwt w hg
      have hnd : (impactGroups.map Prod.fst).Nodup := by decide
      obtain ⟨imp', h'⟩ := fixGroupsAux_ok_of_wt impactGroups imp hnd hwt2
      show ∃ r', (match fixGroupsAux impactGroups imp with
        | Except.ok imp' => Except.ok (jset "impacts" (JVal.obj imp') r)
        | Except.error e => Except.error e) = Except.ok r'
      rw [h']
      exact ⟨_, rfl⟩

theorem fixImpacts_props (r r' : JObj) (h : fixImpacts r = .ok r') :
    (∀ k, k ≠ "impacts" → jget? k r' = jget? k r) ∧
    (∀ imp, jget? "impacts" r = some (JVal.obj imp) →
      ∃ imp', jget? "impacts" r' = some (JVal.obj imp') ∧ GroupsGood imp') ∧
    (∀ w, jget? "impacts" r = some w → ∃ imp, w = JVal.obj imp) := by
  unfold fixImpacts at h
  split at h
  · rename_i hm
    injection h with h1
    subst h1
    refine ⟨fun k _ => rfl, ?_, ?_⟩
    · intro imp hg
      rw [jmem_eq_isSome, hg] at hm
      simp at hm
    · intro w hg
      rw [jmem_eq_isSome, hg] at hm
      simp at hm
  · split at h
    · rename_i imp hg
      split at h
      · rename_i imp' hfix
        injection h with h1
        subst h1
        have hnd : (impactGroups.map Prod.fst).Nodup := by decide
        have hinner : ∀ gd ∈ impactGroups,
            (gd.2.map Prod.fst).Nodup ∧ ∀ rd ∈ gd.2, rd.2.falsy = false := by decide
        obtain ⟨hgood, _⟩ := fixGroupsAux_props impactGroups imp imp' hnd hinner hfix
        refine ⟨?_, ?_, ?_⟩
        · intro k hk
          exact jget_jset_ne _ _ _ _ (Ne.symm hk)
        · intro imp0 hg0
          rw [hg] at hg0
          injection hg0 with h2
          injection h2 with h3
          subst h3
          exact ⟨imp', jget_jset_self _ _ _, hgood⟩
        · intro w hw
          rw [hg] at hw
          injection hw with h2
          exact ⟨imp, h2.symm⟩
      · simp at h
    · simp at h

theorem fixImpacts_noop (r : JObj) (imp : JObj)
    (hg : jget? "impacts" r = some (JVal.obj imp)) (hgood : GroupsGood imp) :
    fixImpacts r = .ok r := by
  have hm : jmem "impacts" r = true := by
    rw [jmem_eq_isSome, hg]
    rfl
  unfold fixImpacts
  rw [hm]
  simp only [Bool.true_eq_false, if_false]
  rw [hg]
  show (match fixGroupsAux impactGroups imp with
    | .ok imp' => Except.ok (jset "impacts" (.obj imp') r)
    | .error e => Except.error e) = .ok r
  rw [fixGroupsAux_noop _ _ hgood]
  show Except.ok (jset "impacts" (JVal.obj imp) r) = Except.ok r
  rw [jset_self _ _ _ hg]

theorem fixDecision_get_ne (r : JObj) (k : String) (h : k ≠ "decision") :
    jget? k (fixDecision r) = jget? k r := by
  unfold fixDecision
  split
  · exact jget_jset_ne _ _ _ _ (Ne.symm h)
  · exact jget_jset_ne _ _ _ _ (Ne.symm h)

theorem fixDecision_self (r : JObj) :
    ∃ d, jget? "decision" (fixDecision r) = some (JVal.obj d) ∧
      (jget? "level" d).isSome ∧ (jget? "reason" d).isSome := by
  unfold fixDecision
  split
  · refine ⟨_, jget_jset_self _ _ _, ?_, ?_⟩
    · rw [mergeStep_get_ne_pair _ _ _ _ (by decide), mergeStep_get_self_pair]
      rfl
    · rw [mergeStep_get_self_pair]
      rfl
  · exact ⟨defaultDecision, jget_jset_self _ _ _, by decide, by decide⟩

theorem fixDecision_noop (r : JObj) (d : JObj)
    (hg : jget? "decision" r = some (JVal.obj d))
    (hl : jmem "level" d = true) (hr : jmem "reason" d = true) :
    fixDecision r = r := by
  have h1 : mergeStep d ("level", JVal.str "持续观察") = d := by
    simp [mergeStep, hl]
  have h2 : mergeStep d ("reason", JVal.str "待进一步评估") = d := by
    simp [mergeStep, hr]
  unfold fixDecision
  rw [hg]
  show jset "decision"
      (JVal.obj (mergeStep (mergeStep d ("level", JVal.str "持续观察"))
        ("reason", JVal.str "待进一步评估"))) r = r
  rw [h1, h2, jset_self _ _ _ hg]

theorem fixAction_get_ne (r : JObj) (k : String) (h : k ≠ "action") :
    jget? k (fixAction r) = jget? k r := by
  unfold fixAction
  split
  · exact jget_jset_ne _ _ _ _ (Ne.symm h)
  · exact jget_jset_ne _ _ _ _ (Ne.symm h)

theorem fixAction_self (r : JObj) :
    ∃ a, jget? "action" (fixAction r) = some (JVal.obj a) ∧
      (jget? "label" a).isSome ∧ (jget? "detail" a).isSome := by
  unfold fixAction
  split
  · refine ⟨_, jget_jset_self _ _ _, ?_, ?_⟩
    · rw [mergeStep_get_ne_pair _ _ _ _ (by decide), mergeStep_get_self_pair]
      rfl
    · rw [mergeStep_get_self_pair]
      rfl
  · exact ⟨defaultAction, jget_jset_self _ _ _, by decide, by decide⟩

theorem fixAction_noop (r : JObj) (a : JObj)
    (hg : jget? "action" r = some (JVal.obj a))
    (hl : jmem "label" a = true) (hr : jmem "detail" a = true) :
    fixAction r = r := by
  have h1 : mergeStep a ("label", JVal.str "👀持续观察") = a := by
    simp [mergeStep, hl]
  have h2 : mergeStep a ("detail", JVal.str "建议：持续关注相关动态") = a := by
    simp [mergeStep, hr]
  unfold fixAction
  rw [hg]
  show jset "action"
      (JVal.obj (mergeStep (mergeStep a ("label", JVal.str "👀持续观察"))
        ("detail", JVal.str "建议：持续关注相关动态"))) r = r
  rw [h1, h2, jset_self _ _ _ hg]

theorem truncCoreChanges_get_ne (r : JObj) (k : String) (h : k ≠ "core_changes") :
    jget? k (truncCoreChanges r) = jget? k r := by
  unfold truncCoreChanges
  split
  · exact jget_jset_ne _ _ _ _ (Ne.symm h)
  · rfl

theorem truncCoreChanges_take (r : JObj) (xs : List JVal)
    (h : jget? "core_changes" r = some (JVal.arr xs)) :
    jget? "core_changes" (truncCoreChanges r) = some (JVal.arr (xs.take 2)) := by
  unfold truncCoreChanges
  rw [h]
  exact jget_jset_self _ _ _

theorem truncCoreChanges_bound (r : JObj) (xs : List JVal)
    (h : jget? "core_changes" (truncCoreChanges r) = some (JVal.arr xs)) :
    xs.length ≤ 2 := by
  unfold truncCoreChanges at h
  split at h
  · rename_i ys hy
    rw [jget_jset_self] at h
    injection h with h1
    injection h1 with h2
    rw [← h2]
    exact List.length_take_le _ _
  · rename_i hno
    exact absurd h (hno xs)

theorem truncCoreChanges_noop (r : JObj)
    (h : ∀ xs, jget? "core_changes" r = some (JVal.arr xs) → xs.length ≤ 2) :
    truncCoreChanges r = r := by
  unfold truncCoreChanges
  split
  · rename_i ys hy
    rw [List.take_of_length_le (h ys hy)]
    exact jset_self _ _ _ hy
  · rfl

theorem fixRelated_get_ne (r : JObj) (k : String) (h : k ≠ "related") :
    jget? k (fixRelated r) = jget? k r := by
  unfold fixRelated
  split
  · exact jget_jset_ne _ _ _ _ (Ne.symm h)
  · exact jget_jset_ne _ _ _ _ (Ne.symm h)

theorem fixRelated_self (r : JObj) :
    ∃ xs, jget? "related" (fixRelated r) = some (JVal.arr xs) ∧ xs.length ≤ 2 := by
  unfold fixRelated
  split
  · rename_i ys hy
    exact ⟨ys.take 2, jget_jset_self _ _ _, List.length_take_le _ _⟩
  · exact ⟨[], jget_jset_self _ _ _, by decide⟩

theorem fixRelated_take (r : JObj) (xs : List JVal)
    (h : jget? "related" r = some (JVal.arr xs)) :
    jget? "related" (fixRelated r) = some (JVal.arr (xs.take 2)) := by
  unfold fixRelated
  rw [h]
  exact jget_jset_self _ _ _

theorem fixRelated_noop (r : JObj) (xs : List JVal)
    (h : jget? "related" r = some (JVal.arr xs)) (hlen : xs.length ≤ 2) :
    fixRelated r = r := by
  unfold fixRelated
  rw [h]
  show jset "related" (JVal.arr (xs.take 2)) r = r
  rw [List.take_of_length_le hlen]
  exact jset_self _ _ _ h

theorem truncSources_get_ne (r : JObj) (k : String) (h : k ≠ "sources") :
    jget? k (truncSources r) = jget? k r := by
  unfold truncSources
  split
  · exact jget_jset_ne _ _ _ _ (Ne.symm h)
  · rfl

theorem truncSources_take (r : JObj) (xs : List JVal)
    (h : jget? "sources" r = some (JVal.arr xs)) :
    jget? "sources" (truncSources r) = some (JVal.arr (xs.take 3)) := by
  unfold truncSources
  rw [h]
  exact jget_jset_self _ _ _

theorem truncSources_bound (r : JObj) (xs : List JVal)
    (h : jget? "sources" (truncSources r) = some (JVal.arr xs)) :
    xs.length ≤ 3 := by
  unfold truncSources at h
  split at h
  · rename_i ys hy
    rw [jget_jset_self] at h
    injection h with h1
    injection h1 with h2
    rw [← h2]
    exact List.length_take_le _ _
  · rename_i hno
    exact absurd h (hno xs)

theorem truncSources_noop (r : JObj)
    (h : ∀ xs, jget? "sources" r = some (JVal.arr xs) → xs.length ≤ 3) :
    truncSources r = r := by
  unfold truncSources
  split
  · rename_i ys hy
    rw [List.take_of_length_le (h ys hy)]
    exact jset_self _ _ _ hy
  · rfl

theorem truncCoreChanges_isSome (r : JObj) (h : (jget? "core_changes" r).isSome) :
    (jget? "core_changes" (truncCoreChanges r)).isSome := by
  unfold truncCoreChanges
  split
  · rw [jget_jset_self]
    rfl
  · exact h

theorem truncSources_isSome (r : JObj) (h : (jget? "sources" r).isSome) :
    (jget? "sources" (truncSources r)).isSome := by
  unfold truncSources
  split
  · rw [jget_jset_self]
    rfl
  · exact h

/-! ## Transport lemmas through the post-impacts stages -/

theorem fixTail_get_other (r : JObj) (k : String) (h1 : k ≠ "decision")
    (h2 : k ≠ "core_changes") (h3 : k ≠ "related") (h4 : k ≠ "sources")
    (h5 : k ≠ "action") :
    jget? k (fixTail r) = jget? k r := by
  unfold fixTail
  rw [fixAction_get_ne _ _ h5, truncSources_get_ne _ _ h4, fixRelated_get_ne _ _ h3,
    truncCoreChanges_get_ne _ _ h2, fixDecision_get_ne _ _ h1]

theorem fixTail_decision (r : JObj) :
    ∃ d, jget? "decision" (fixTail r) = some (JVal.obj d) ∧
      (jget? "level" d).isSome ∧ (jget? "reason" d).isSome := by
  unfold fixTail
  obtain ⟨d, hd, hl, hr⟩ := fixDecision_self r
  refine ⟨d, ?_, hl, hr⟩
  rw [fixAction_get_ne _ _ (by decide), truncSources_get_ne _ _ (by decide),
    fixRelated_get_ne _ _ (by decide), truncCoreChanges_get_ne _ _ (by decide), hd]

theorem fixTail_action (r : JObj) :
    ∃ a, jget? "action" (fixTail r) = some (JVal.obj a) ∧
      (jget? "label" a).isSome ∧ (jget? "detail" a).isSome := by
  unfold fixTail
  exact fixAction_self _

theorem fixTail_related (r : JObj) :
    ∃ xs, jget? "related" (fixTail r) = some (JVal.arr xs) ∧ xs.length ≤ 2 := by
  unfold fixTail
  obtain ⟨xs, hx, hlen⟩ := fixRelated_self (truncCoreChanges (fixDecision r))
  refine ⟨xs, ?_, hlen⟩
  rw [fixAction_get_ne _ _ (by decide), truncSources_get_ne _ _ (by decide), hx]

theorem fixTail_core_bound (r : JObj) (xs : List JVal)
    (h : jget? "core_changes" (fixTail r) = some (JVal.arr xs)) : xs.length ≤ 2 := by
  unfold fixTail at h
  rw [fixAction_get_ne _ _ (by decide), truncSources_get_ne _ _ (by decide),
    fixRelated_get_ne _ _ (by decide)] at h
  exact truncCoreChanges_bound _ _ h

theorem fixTail_sources_bound (r : JObj) (xs : List JVal)
    (h : jget? "sources" (fixTail r) = some (JVal.arr xs)) : xs.length ≤ 3 := by
  unfold fixTail at h
  rw [fixAction_get_ne _ _ (by decide)] at h
  exact truncSources_bound _ _ h

theorem fixTail_core_isSome (r : JObj) (h : (jget? "core_changes" r).isSome) :
    (jget? "core_changes" (fixTail r)).isSome := by
  unfold fixTail
  rw [fixAction_get_ne _ _ (by decide), truncSources_get_ne _ _ (by decide),
    fixRelated_get_ne _ _ (by decide)]
  apply truncCoreChanges_isSome
  rw [fixDecision_get_ne _ _ (by decide)]
  exact h

theorem fixTail_sources_isSome (r : JObj) (h : (jget? "sources" r).isSome) :
    (jget? "sources" (fixTail r)).isSome := by
  unfold fixTail
  rw [fixAction_get_ne _ _ (by decide)]
  apply truncSources_isSome
  rw [fixRelated_get_ne _ _ (by decide), truncCoreChanges_get_ne _ _ (by decide),
    fixDecision_get_ne _ _ (by decide)]
  exact h

theorem fixTail_core_take (r : JObj) (xs : List JVal)
    (h : jget? "core_changes" r = some (JVal.arr xs)) :
    jget? "core_changes" (fixTail r) = some (JVal.arr (xs.take 2)) := by
  unfold fixTail
  rw [fixAction_get_ne _ _ (by decide), truncSources_get_ne _ _ (by decide),
    fixRelated_get_ne _ _ (by decide)]
  apply truncCoreChanges_take
  rw [fixDecision_get_ne _ _ (by decide)]
  exact h

theorem fixTail_related_take (r : JObj) (xs : List JVal)
    (h : jget? "related" r = some (JVal.arr xs)) :
    jget? "related" (fixTail r) = some (JVal.arr (xs.take 2)) := by
  unfold fixTail
  rw [fixAction_get_ne _ _ (by decide), truncSources_get_ne _ _ (by decide)]
  apply fixRelated_take
  rw [truncCoreChanges_get_ne _ _ (by decide), fixDecision_get_ne _ _ (by decide)]
  exact h

theorem fixTail_sources_take (r : JObj) (xs : List JVal)
    (h : jget? "sources" r = some (JVal.arr xs)) :
    jget? "sources" (fixTail r) = some (JVal.arr (xs.take 3)) := by
  unfold fixTail
  rw [fixAction_get_ne _ _ (by decide)]
  apply truncSources_take
  rw [fixRelated_get_ne _ _ (by decide), truncCoreChanges_get_ne _ _ (by decide),
    fixDecision_get_ne _ _ (by decide)]
  exact h

/-! ## The validator's output characterization -/

/-- Structural invariant satisfied by every successful validator output:
all eight declared top-level fields present, `impacts` a dict of three dicts
with all role fields truthy, `decision`/`action` dicts carrying their two
keys, `related` a list of length at most 2, and `core_changes` / `sources`
bounded whenever they are lists. -/
def ValidReport (r : JObj) : Prop :=
  (∀ k ∈ topKeys, (jget? k r).isSome) ∧
  (∃ imp, jget? "impacts" r = some (JVal.obj imp) ∧ GroupsGood imp) ∧
  (∃ d, jget? "decision" r = some (JVal.obj d) ∧
    (jget? "level" d).isSome ∧ (jget? "reason" d).isSome) ∧
  (∀ xs, jget? "core_changes" r = some (JVal.arr xs) → xs.length ≤ 2) ∧
  (∃ xs, jget? "related" r = some (JVal.arr xs) ∧ xs.length ≤ 2) ∧
  (∀ xs, jget? "sources" r = some (JVal.arr xs) → xs.length ≤ 3) ∧
  (∃ a, jget? "action" r = some (JVal.obj a) ∧
    (jget? "label" a).isSome ∧ (jget? "detail" a).isSome)

theorem validate_ok_valid (t : String) (d r : JObj)
    (h : validate_and_fix_report t d = .ok r) : ValidReport r := by
  unfold validate_and_fix_report at h
  rcases hfix : fixImpacts (mergeDefaults t d) with e | r2
  · rw [hfix] at h
    simp at h
  · rw [hfix] at h
    have h1 : fixTail r2 = r := by
      injection h
    subst h1
    obtain ⟨hne, hobj, hshape⟩ := fixImpacts_props (mergeDefaults t d) r2 hfix
    have hmI : jget? "impacts" (mergeDefaults t d) =
        some ((jget? "impacts" d).getD (JVal.obj defaultImpacts)) :=
      mergeDefaults_get t d ("impacts", JVal.obj defaultImpacts) (mem_default_report_impacts t)
    have himp2 : ∃ imp', jget? "impacts" r2 = some (JVal.obj imp') ∧ GroupsGood imp' := by
      obtain ⟨imp0, himp0⟩ := hshape _ hmI
      rw [himp0] at hmI
      exact hobj imp0 hmI
    have himpT : ∃ imp', jget? "impacts" (fixTail r2) = some (JVal.obj imp') ∧
        GroupsGood imp' := by
      obtain ⟨imp', hi, hg⟩ := himp2
      refine ⟨imp', ?_, hg⟩
      rw [fixTail_get_other _ _ (by decide) (by decide) (by decide) (by decide) (by decide), hi]
    have hmD : jget? "date" (mergeDefaults t d) =
        some ((jget? "date" d).getD (JVal.str t)) :=
      mergeDefaults_get t d ("date", JVal.str t) (mem_default_report_date t)
    have hmT : jget? "theme" (mergeDefaults t d) =
        some ((jget? "theme" d).getD (JVal.str "AI 技术动态")) :=
      mergeDefaults_get t d ("theme", JVal.str "AI 技术动态") (mem_default_report_theme t)
    have hmC : jget? "core_changes" (mergeDefaults t d) =
        some ((jget? "core_changes" d).getD (JVal.arr [])) :=
      mergeDefaults_get t d ("core_changes", JVal.arr []) (mem_default_report_core t)
    have hmS : jget? "sources" (mergeDefaults t d) =
        some ((jget? "sources" d).getD (JVal.arr [])) :=
      mergeDefaults_get t d ("sources", JVal.arr []) (mem_default_report_sources t)
    refine ⟨?_, himpT, fixTail_decision r2, fun xs hx => fixTail_core_bound r2 xs hx,
      fixTail_related r2, fun xs hx => fixTail_sources_bound r2 xs hx, fixTail_action r2⟩
    intro k hk
    fin_cases hk
    · rw [fixTail_get_other _ _ (by decide) (by decide) (by decide) (by decide) (by decide),
        hne "date" (by decide), hmD]
      rfl
    · rw [fixTail_get_other _ _ (by decide) (by decide) (by decide) (by decide) (by decide),
        hne "theme" (by decide), hmT]
      rfl
    · obtain ⟨dd, hdd, _, _⟩ := fixTail_decision r2
      rw [hdd]
      rfl
    · apply fixTail_core_isSome
      rw [hne "core_changes" (by decide), hmC]
      rfl
    · obtain ⟨xs, hx, _⟩ := fixTail_related r2
      rw [hx]
      rfl
    · obtain ⟨imp', hi, _⟩ := himpT
      rw [hi]
      rfl
    · obtain ⟨a, ha, _, _⟩ := fixTail_action r2
      rw [ha]
      rfl
    · apply fixTail_sources_isSome
      rw [hne "sources" (by decide), hmS]
      rfl

theorem valid_noop (t : String) (r : JObj) (h : ValidReport r) :
    validate_and_fix_report t r = .ok r := by
  obtain ⟨hkeys, ⟨imp, himp, hgood⟩, ⟨d, hd, hdl, hdr⟩, hcore, ⟨xs, hrel, hrlen⟩,
    hsrc, ⟨a, ha, hal, had⟩⟩ := h
  have hmerge : mergeDefaults t r = r := by
    apply merge_noop
    intro kv hkv
    rw [jmem_eq_isSome]
    apply hkeys
    have hmm : kv.1 ∈ (default_report t).map Prod.fst := List.mem_map.mpr ⟨kv, hkv, rfl⟩
    rw [default_report_keys] at hmm
    exact hmm
  unfold validate_and_fix_report
  rw [hmerge, fixImpacts_noop r imp himp hgood]
  show Except.ok (fixTail r) = Except.ok r
  have h3 : fixDecision r = r :=
    fixDecision_noop r d hd (by rw [jmem_eq_isSome]; exact hdl)
      (by rw [jmem_eq_isSome]; exact hdr)
  have h4 : truncCoreChanges r = r := truncCoreChanges_noop r hcore
  have h5 : fixRelated r = r := fixRelated_noop r xs hrel hrlen
  have h6 : truncSources r = r := truncSources_noop r hsrc
  have h7 : fixAction r = r :=
    fixAction_noop r a ha (by rw [jmem_eq_isSome]; exact hal)
      (by rw [jmem_eq_isSome]; exact had)
  unfold fixTail
  rw [h3, h4, h5, h6, h7]

/-! ## Claims about the validator -/

/-- Input documents whose `impacts` field, when present, is a dict whose
cluster fields, when present, are dicts — exactly the inputs on which the
Python cluster-repair loop cannot raise. -/
def ImpactsWT (d : JObj) : Prop :=
  ∀ w, jget? "impacts" d = some w → ∃ imp, w = JVal.obj imp ∧ GroupsWTOn impactGroups imp

/-- C1 (amended): on every JSON-object input whose `impacts` field (when
present) is an object with object-valued clusters, `validate_and_fix_report`
returns without failing a document in which every declared top-level field is
present and every nested role-impact field of the `business` / `tech` /
`delivery` clusters is non-empty.  (The unrestricted claim is refuted by
`validator_raises_on_nondict_impacts`.) -/
theorem validator_total_on_welltyped_impacts (t : String) (d : JObj) (hwt : ImpactsWT d) :
    ∃ r, validate_and_fix_report t d = .ok r ∧
      (∀ k ∈ topKeys, (jget? k r).isSome) ∧
      (∃ imp, jget? "impacts" r = some (JVal.obj imp) ∧ GroupsGood imp) := by
  have hm : jget? "impacts" (mergeDefaults t d) =
      some ((jget? "impacts" d).getD (JVal.obj defaultImpacts)) :=
    mergeDefaults_get t d ("impacts", JVal.obj defaultImpacts) (mem_default_report_impacts t)
  have hwt1 : ∀ w, jget? "impacts" (mergeDefaults t d) = some w →
      ∃ imp, w = JVal.obj imp ∧ GroupsWTOn impactGroups imp := by
    intro w hw
    rw [hm] at hw
    injection hw with h1
    subst h1
    rcases hg : jget? "impacts" d with _ | w0
    · refine ⟨defaultImpacts, rfl, ?_⟩
      intro gd hgd w2 hw2
      fin_cases hgd
      · have h0 : some (JVal.obj defaultBusiness) = some w2 := hw2
        injection h0 with h1
        exact ⟨defaultBusiness, h1.symm⟩
      · have h0 : some (JVal.obj defaultTech) = some w2 := hw2
        injection h0 with h1
        exact ⟨defaultTech, h1.symm⟩
      · have h0 : some (JVal.obj defaultDelivery) = some w2 := hw2
        injection h0 with h1
        exact ⟨defaultDelivery, h1.symm⟩
    · obtain ⟨imp, he, hwton⟩ := hwt w0 hg
      exact ⟨imp, by simpa using he, hwton⟩
  obtain ⟨r2, hr2⟩ := fixImpacts_ok_of_wt (mergeDefaults t d) hwt1
  have hok : validate_and_fix_report t d = .ok (fixTail r2) := by
    unfold validate_and_fix_report
    rw [hr2]
  have hv := validate_ok_valid t d (fixTail r2) hok
  exact ⟨fixTail r2, hok, hv.1, hv.2.1⟩

/-- C1 counterexample: the validator is not total on all JSON-object inputs —
an `impacts` field carrying a (wrong-typed) string makes the Python code raise
`TypeError` (`report["impacts"][group] = ...` on a `str`), modelled here as an
`Except.error`, instead of returning a repaired document. -/
theorem validator_raises_on_nondict_impacts :
    validate_and_fix_report "2026-02-03" [("impacts", JVal.str "无")] =
      .error "TypeError" := rfl

/-- C1 witness: the empty object `{}` is well-typed and the amended totality
theorem applies to it. -/
theorem validator_total_witness :
    ImpactsWT [] ∧ ∃ r, validate_and_fix_report "2026-02-03" [] = .ok r ∧
      (∀ k ∈ topKeys, (jget? k r).isSome) ∧
      (∃ imp, jget? "impacts" r = some (JVal.obj imp) ∧ GroupsGood imp) := by
  have hwt : ImpactsWT [] := fun w hw => Option.noConfusion hw
  exact ⟨hwt, validator_total_on_welltyped_impacts "2026-02-03" [] hwt⟩

/-- C2: the validator is idempotent — re-validating the result of a successful
validation is a no-op, whatever "today" string each run uses (a raised first
run propagates through `bind` unchanged). -/
theorem validator_idempotent (t t' : String) (d : JObj) :
    (validate_and_fix_report t d).bind (validate_and_fix_report t') =
      validate_and_fix_report t d := by
  rcases h : validate_and_fix_report t d with e | r
  · rfl
  · show validate_and_fix_report t' r = Except.ok r
    exact valid_noop t' r (validate_ok_valid t d r h)

/-- C8: after a successful validation the list-valued fields are truncated to
their declared maximum cardinality — `core_changes` and `related` to 2
elements, `sources` to 3 — and the surviving prefix is exactly the input
prefix (`take`), so no minimum length is ever enforced. -/
theorem validator_truncates_lists (t : String) (d r : JObj)
    (h : validate_and_fix_report t d = .ok r) :
    (∀ xs, jget? "core_changes" r = some (JVal.arr xs) → xs.length ≤ 2) ∧
    (∀ xs, jget? "related" r = some (JVal.arr xs) → xs.length ≤ 2) ∧
    (∀ xs, jget? "sources" r = some (JVal.arr xs) → xs.length ≤ 3) ∧
    (∀ xs, jget? "core_changes" d = some (JVal.arr xs) →
      jget? "core_changes" r = some (JVal.arr (xs.take 2))) ∧
    (∀ xs, jget? "related" d = some (JVal.arr xs) →
      jget? "related" r = some (JVal.arr (xs.take 2))) ∧
    (∀ xs, jget? "sources" d = some (JVal.arr xs) →
      jget? "sources" r = some (JVal.arr (xs.take 3))) := by
  have hv := validate_ok_valid t d r h
  unfold validate_and_fix_report at h
  rcases hfix : fixImpacts (mergeDefaults t d) with e | r2
  · rw [hfix] at h
    simp at h
  · rw [hfix] at h
    have h1 : fixTail r2 = r := by injection h
    subst h1
    obtain ⟨hne, _, _⟩ := fixImpacts_props (mergeDefaults t d) r2 hfix
    refine ⟨hv.2.2.2.1, ?_, hv.2.2.2.2.2.1, ?_, ?_, ?_⟩
    · intro xs hx
      obtain ⟨ys, hy, hylen⟩ := hv.2.2.2.2.1
      rw [hx] at hy
      injection hy with h2
      injection h2 with h3
      rw [h3]
      exact hylen
    · intro xs hx
      apply fixTail_core_take
      rw [hne "core_changes" (by decide),
        mergeDefaults_get t d ("core_changes", JVal.arr []) (mem_default_report_core t), hx]
      rfl
    · intro xs hx
      apply fixTail_related_take
      rw [hne "related" (by decide),
        mergeDefaults_get t d ("related", JVal.arr []) (mem_default_report_related t), hx]
      rfl
    · intro xs hx
      apply fixTail_sources_take
      rw [hne "sources" (by decide),
        mergeDefaults_get t d ("sources", JVal.arr []) (mem_default_report_sources t), hx]
      rfl

/-- C8 witness: the truncation bounds instantiated on the empty input object,
whose validation result is the default report. -/
theorem validator_truncates_witness :
    validate_and_fix_report "2026-02-03" [] = .ok (default_report "2026-02-03") ∧
    (∀ xs, jget? "core_changes" (default_report "2026-02-03") = some (JVal.arr xs) →
      xs.length ≤ 2) ∧
    (∀ xs, jget? "sources" (default_report "2026-02-03") = some (JVal.arr xs) →
      xs.length ≤ 3) := by
  have hok : validate_and_fix_report "2026-02-03" [] = .ok (default_report "2026-02-03") := rfl
  have hc := validator_truncates_lists "2026-02-03" [] _ hok
  exact ⟨hok, hc.1, hc.2.2.1⟩

/-! ## Scoring stage (`score_entries`, source lines 209-256)

The LLM response's `scores` array is an input here (the HTTP call is an
external collaborator); each element carries the `link`, `score`, `reason`
fields of the provider contract.  Python's `list.sort(key=..., reverse=True)`
is a stable descending sort, embedded as a stable insertion sort. -/

structure CandidateItem where
  title : String
  link : String
  summary : String
  published : String
  hash : String
deriving DecidableEq

structure ScoreItem where
  link : String
  score : Rat
  reason : String
deriving DecidableEq

/-- A retained entry: the matched candidate's fields (`link_map[link].copy()`)
plus the `score` and `score_reason` fields added by the source. -/
structure TopEntry where
  title : String
  link : String
  summary : String
  published : String
  hash : String
  score : Rat
  score_reason : String
deriving DecidableEq

/-- Stable descending insert: walk past strictly greater heads only, so an
equal-scored element already in the (later-input) sorted tail stays behind
the inserted (earlier-input) one. -/
def insertScoreDesc (s : ScoreItem) : List ScoreItem → List ScoreItem
  | [] => [s]
  | t :: ts => if s.score < t.score then t :: insertScoreDesc s ts else s :: t :: ts

def sortScoresDesc : List ScoreItem → List ScoreItem
  | [] => []
  | s :: ss => insertScoreDesc s (sortScoresDesc ss)

/-- `link_map = {e["link"]: e for e in entries}` keeps the *last* binding for
a duplicated link, so `link_map[link]` is the last matching entry. -/
def lastMatching (entries : List CandidateItem) (link : String) : Option CandidateItem :=
  entries.reverse.find? (fun e => e.link == link)

def joinScore (entries : List CandidateItem) (s : ScoreItem) : Option TopEntry :=
  match lastMatching entries s.link with
  | some e => some ⟨e.title, e.link, e.summary, e.published, e.hash, s.score, s.reason⟩
  | none => none

def score_entries (entries : List CandidateItem) (scores : List ScoreItem) : List TopEntry :=
  if entries.isEmpty then []
  else ((sortScoresDesc scores).take TOP_N).filterMap (joinScore entries)

theorem insertScoreDesc_perm (s : ScoreItem) (l : List ScoreItem) :
    (insertScoreDesc s l).Perm (s :: l) := by
  induction l with
  | nil => exact List.Perm.refl _
  | cons t ts ih =>
    unfold insertScoreDesc
    by_cases h : s.score < t.score
    · rw [if_pos h]
      exact (ih.cons t).trans (List.Perm.swap s t ts)
    · rw [if_neg h]

theorem sortScoresDesc_perm (l : List ScoreItem) : (sortScoresDesc l).Perm l := by
  induction l with
  | nil => exact List.Perm.refl _
  | cons s ss ih =>
    show (insertScoreDesc s (sortScoresDesc ss)).Perm (s :: ss)
    exact (insertScoreDesc_perm s _).trans (ih.cons s)

theorem insertScoreDesc_pairwise (s : ScoreItem) (l : List ScoreItem)
    (h : l.Pairwise (fun a b => b.score ≤ a.score)) :
    (insertScoreDesc s l).Pairwise (fun a b => b.score ≤ a.score) := by
  induction l with
  | nil => simp [insertScoreDesc]
  | cons t ts ih =>
    rw [List.pairwise_cons] at h
    unfold insertScoreDesc
    by_cases hc : s.score < t.score
    · rw [if_pos hc]
      rw [List.pairwise_cons]
      refine ⟨?_, ih h.2⟩
      intro x hx
      have hx2 : x ∈ s :: ts := (insertScoreDesc_perm s ts).mem_iff.mp hx
      rcases List.mem_cons.mp hx2 with h1 | h1
      · subst h1
        exact le_of_lt hc
      · exact h.1 x h1
    · rw [if_neg hc]
      rw [List.pairwise_cons]
      refine ⟨?_, List.pairwise_cons.mpr h⟩
      intro x hx
      rcases List.mem_cons.mp hx with h1 | h1
      · subst h1
        exact not_lt.mp hc
      · exact le_trans (h.1 x h1) (not_lt.mp hc)

theorem sortScoresDesc_pairwise (l : List ScoreItem) :
    (sortScoresDesc l).Pairwise (fun a b => b.score ≤ a.score) := by
  induction l with
  | nil => simp [sortScoresDesc]
  | cons s ss ih => exact insertScoreDesc_pairwise s _ ih

theorem insertScoreDesc_filter (s : ScoreItem) (l : List ScoreItem) (q : Rat) :
    (insertScoreDesc s l).filter (fun x => decide (x.score = q)) =
      (s :: l).filter (fun x => decide (x.score = q)) := by
  induction l with
  | nil => rfl
  | cons t ts ih =>
    unfold insertScoreDesc
    by_cases hc : s.score < t.score
    · rw [if_pos hc]
      by_cases hq : t.score = q
      · have hs : ¬s.score = q := by
          intro he
          rw [he, ← hq] at hc
          exact absurd hc (lt_irrefl _)
        simp [List.filter_cons, hq, hs, ih]
      · by_cases hs : s.score = q
        · simp [List.filter_cons, hq, hs, ih]
        · simp [List.filter_cons, hq, hs, ih]
    · rw [if_neg hc]

theorem sortScoresDesc_stable (l : List ScoreItem) (q : Rat) :
    (sortScoresDesc l).filter (fun x => decide (x.score = q)) =
      l.filter (fun x => decide (x.score = q)) := by
  induction l with
  | nil => rfl
  | cons s ss ih =>
    show (insertScoreDesc s (sortScoresDesc ss)).filter _ = _
    rw [insertScoreDesc_filter, List.filter_cons, List.filter_cons, ih]

theorem length_filterMap_lt {α β : Type} (f : α → Option β) (l : List α) (a : α)
    (ha : a ∈ l) (hf : f a = none) : (l.filterMap f).length < l.length := by
  induction l with
  | nil => cases ha
  | cons x xs ih =>
    rcases List.mem_cons.mp ha with h1 | h1
    · subst h1
      rw [List.filterMap_cons_none hf]
      exact Nat.lt_succ_of_le (List.length_filterMap_le f xs)
    · rcases hx : f x with _ | b
      · rw [List.filterMap_cons_none hx]
        exact Nat.lt_trans (ih h1) (Nat.lt_succ_self _)
      · rw [List.filterMap_cons_some hx]
        exact Nat.succ_lt_succ (ih h1)

theorem lastMatching_mem (entries : List CandidateItem) (link : String)
    (e : CandidateItem) (h : lastMatching entries link = some e) :
    e ∈ entries ∧ e.link = link := by
  unfold lastMatching at h
  refine ⟨List.mem_reverse.mp (List.mem_of_find?_eq_some h), ?_⟩
  have := List.find?_some h
  simpa using this

theorem lastMatching_exists (entries : List CandidateItem) (link : String)
    (h : ∃ e ∈ entries, e.link = link) :
    ∃ e', lastMatching entries link = some e' := by
  obtain ⟨e, he, hl⟩ := h
  unfold lastMatching
  rcases hf : entries.reverse.find? (fun x => x.link == link) with _ | e'
  · exfalso
    have := List.find?_eq_none.mp hf e (List.mem_reverse.mpr he)
    simp [hl] at this
  · exact ⟨e', hf⟩

/-- C3: the scoring stage sorts the provider's `scores` array descending by
score (a stable sort: a permutation, pairwise descending, and equal-score
items keep input order), takes the top `TOP_N = 3`, silently drops scored
items whose link matches no ingested candidate, and each retained item
carries the matched candidate's fields plus the score and reason. -/
theorem score_entries_top3_stable_sort_join (entries : List CandidateItem)
    (scores : List ScoreItem) (hne : entries ≠ []) :
    (sortScoresDesc scores).Perm scores ∧
    (sortScoresDesc scores).Pairwise (fun a b => b.score ≤ a.score) ∧
    (∀ q : Rat, (sortScoresDesc scores).filter (fun x => decide (x.score = q)) =
      scores.filter (fun x => decide (x.score = q))) ∧
    (score_entries entries scores).length ≤ TOP_N ∧
    (∀ t ∈ score_entries entries scores,
      (∃ s ∈ (sortScoresDesc scores).take TOP_N,
        s.link = t.link ∧ s.score = t.score ∧ s.reason = t.score_reason) ∧
      (∃ e ∈ entries, e.link = t.link ∧ e.title = t.title ∧ e.summary = t.summary ∧
        e.published = t.published ∧ e.hash = t.hash)) ∧
    (∀ s ∈ (sortScoresDesc scores).take TOP_N,
      ((∃ e ∈ entries, e.link = s.link) →
        ∃ t ∈ score_entries entries scores, t.link = s.link ∧ t.score = s.score) ∧
      ((∀ e ∈ entries, e.link ≠ s.link) →
        ∀ t ∈ score_entries entries scores, t.link ≠ s.link)) := by
  have hie : entries.isEmpty = false := by
    cases entries with
    | nil => exact absurd rfl hne
    | cons a as => rfl
  have hs : score_entries entries scores =
      ((sortScoresDesc scores).take TOP_N).filterMap (joinScore entries) := by
    unfold score_entries
    rw [hie]
    rfl
  have hforward : ∀ t ∈ score_entries entries scores,
      (∃ s ∈ (sortScoresDesc scores).take TOP_N,
        s.link = t.link ∧ s.score = t.score ∧ s.reason = t.score_reason) ∧
      (∃ e ∈ entries, e.link = t.link ∧ e.title = t.title ∧ e.summary = t.summary ∧
        e.published = t.published ∧ e.hash = t.hash) := by
    intro t ht
    rw [hs] at ht
    obtain ⟨s, hsmem, hfs⟩ := List.mem_filterMap.mp ht
    unfold joinScore at hfs
    rcases hlm : lastMatching entries s.link with _ | e
    · rw [hlm] at hfs
      cases hfs
    · rw [hlm] at hfs
      injection hfs with h1
      obtain ⟨hemem, helink⟩ := lastMatching_mem entries s.link e hlm
      subst h1
      exact ⟨⟨s, hsmem, helink.symm, rfl, rfl⟩, ⟨e, hemem, rfl, rfl, rfl, rfl, rfl⟩⟩
  refine ⟨sortScoresDesc_perm scores, sortScoresDesc_pairwise scores,
    fun q => sortScoresDesc_stable scores q, ?_, hforward, ?_⟩
  · rw [hs]
    exact le_trans (List.length_filterMap_le _ _) (List.length_take_le _ _)
  · intro s hsmem
    constructor
    · intro hex
      obtain ⟨e', hlm⟩ := lastMatching_exists entries s.link hex
      have helink := (lastMatching_mem entries s.link e' hlm).2
      refine ⟨⟨e'.title, e'.link, e'.summary, e'.published, e'.hash, s.score, s.reason⟩,
        ?_, helink, rfl⟩
      rw [hs]
      refine List.mem_filterMap.mpr ⟨s, hsmem, ?_⟩
      unfold joinScore
      rw [hlm]
    · intro hnone t ht hlink
      obtain ⟨_, e, hemem, helink, _⟩ := hforward t ht
      rw [hlink] at helink
      exact hnone e hemem helink

/-- C3 witness: the theorem instantiated on a one-candidate, one-score run. -/
theorem score_entries_top3_witness :
    (([⟨"t1", "L", "s1", "p1", "h1"⟩] : List CandidateItem) ≠ []) ∧
    (score_entries [⟨"t1", "L", "s1", "p1", "h1"⟩] [⟨"L", 8, "good"⟩]).length ≤ TOP_N := by
  refine ⟨by decide, ?_⟩
  exact (score_entries_top3_stable_sort_join
    [⟨"t1", "L", "s1", "p1", "h1"⟩] [⟨"L", 8, "good"⟩] (by decide)).2.2.2.1

/-- C10: the unmatched-link drop happens after the top-3 slice: whenever the
candidate list has at least 3 entries and one of the 3 highest-scored items
has a link matching no candidate, the stage returns fewer than 3 items — no
lower-scored entry is promoted into the vacancy. -/
theorem drop_after_slice_no_promotion (entries : List CandidateItem)
    (scores : List ScoreItem) (hlen : 3 ≤ entries.length)
    (hbad : ∃ s ∈ (sortScoresDesc scores).take TOP_N, ∀ e ∈ entries, e.link ≠ s.link) :
    (score_entries entries scores).length < 3 := by
  have hie : entries.isEmpty = false := by
    cases entries with
    | nil => simp at hlen
    | cons a as => rfl
  obtain ⟨s, hsmem, hnone⟩ := hbad
  have hfnone : joinScore entries s = none := by
    unfold joinScore
    rcases hlm : lastMatching entries s.link with _ | e
    · rfl
    · exfalso
      obtain ⟨hemem, helink⟩ := lastMatching_mem entries s.link e hlm
      exact hnone e hemem helink
  have hs : score_entries entries scores =
      ((sortScoresDesc scores).take TOP_N).filterMap (joinScore entries) := by
    unfold score_entries
    rw [hie]
    rfl
  rw [hs]
  exact lt_of_lt_of_le (length_filterMap_lt _ _ s hsmem hfnone) (List.length_take_le _ _)

/-- C10 witness: three candidates, a top-scored hallucinated link — only two
items survive. -/
theorem drop_after_slice_witness :
    3 ≤ ([⟨"ta", "a", "sa", "pa", "xa"⟩, ⟨"tb", "b", "sb", "pb", "xb"⟩,
        ⟨"tc", "c", "sc", "pc", "xc"⟩] : List CandidateItem).length ∧
    (score_entries
      [⟨"ta", "a", "sa", "pa", "xa"⟩, ⟨"tb", "b", "sb", "pb", "xb"⟩,
        ⟨"tc", "c", "sc", "pc", "xc"⟩]
      [⟨"zzz", 9, "r0"⟩, ⟨"a", 5, "r1"⟩, ⟨"b", 4, "r2"⟩, ⟨"c", 3, "r3"⟩]).length < 3 := by
  refine ⟨by decide, ?_⟩
  exact drop_after_slice_no_promotion _ _ (by decide)
    ⟨⟨"zzz", 9, "r0"⟩, by decide, by decide⟩

/-! ## Ingestion (`fetch_rss_entries`, source lines 85-124)

`feedparser.parse` and `hashlib.sha256` are external collaborators: a feed is
either a fetch failure (`none`, the `except` path of the source's per-source
`try`) or a list of raw entries with optional fields (`entry.get(...)`), and
the fingerprint function is a parameter.  The recency test (is_recent at the
ambient clock) enters as a boolean predicate on the published string. -/

structure RawEntry where
  link : Option String
  published : Option String
  updated : Option String
  title : Option String
  summary : Option String
  description : Option String
deriving DecidableEq

def entryLink (e : RawEntry) : String := e.link.getD ""

def entryPublished (e : RawEntry) : String := e.published.getD (e.updated.getD "")

/-- `if len(summary) > 500: summary = summary[:500] + "..."`. -/
def truncateSummary (s : String) : String :=
  if 500 < s.length then s.take 500 ++ "..." else s

def mkCandidate (hashLink : String → String) (e : RawEntry) : CandidateItem :=
  ⟨e.title.getD "", entryLink e,
    truncateSummary (e.summary.getD (e.description.getD "")),
    entryPublished e, hashLink (entryLink e)⟩

/-- The inner `for entry in feed.entries` loop: skip empty links, already-sent
fingerprints and non-recent entries; append otherwise and break as soon as
the global candidate list reaches `MAX_CANDIDATES`. -/
def processEntries (hashLink : String → String) (isRecentStr : String → Bool)
    (sent : Finset String) : List RawEntry → List CandidateItem → List CandidateItem
  | [], acc => acc
  | e :: es, acc =>
    if entryLink e = "" then processEntries hashLink isRecentStr sent es acc
    else if hashLink (entryLink e) ∈ sent then processEntries hashLink isRecentStr sent es acc
    else if isRecentStr (entryPublished e) = false then
      processEntries hashLink isRecentStr sent es acc
    else if MAX_CANDIDATES ≤ (acc ++ [mkCandidate hashLink e]).length then
      acc ++ [mkCandidate hashLink e]
    else processEntries hashLink isRecentStr sent es (acc ++ [mkCandidate hashLink e])

/-- The outer `for url in RSS_URLS` loop: a failed source (`none`) is skipped
by `continue`; after a successful source the cap is checked and the loop
breaks once `MAX_CANDIDATES` is reached. -/
def fetchLoop (hashLink : String → String) (isRecentStr : String → Bool)
    (sent : Finset String) :
    List (Option (List RawEntry)) → List CandidateItem → List CandidateItem
  | [], acc => acc
  | none :: rest, acc => fetchLoop hashLink isRecentStr sent rest acc
  | some es :: rest, acc =>
    if MAX_CANDIDATES ≤ (processEntries hashLink isRecentStr sent es acc).length then
      processEntries hashLink isRecentStr sent es acc
    else fetchLoop hashLink isRecentStr sent rest (processEntries hashLink isRecentStr sent es acc)

def fetch_rss_entries (hashLink : String → String) (isRecentStr : String → Bool)
    (sent : Finset String) (feeds : List (Option (List RawEntry))) : List CandidateItem :=
  fetchLoop hashLink isRecentStr sent feeds []

/-- The ingestion filter's per-candidate guarantee. -/
def GoodCandidate (hashLink : String → String) (isRecentStr : String → Bool)
    (sent : Finset String) (c : CandidateItem) : Prop :=
  c.link ≠ "" ∧ c.hash = hashLink c.link ∧ c.hash ∉ sent ∧ isRecentStr c.published = true

theorem processEntries_good (hashLink : String → String) (isRecentStr : String → Bool)
    (sent : Finset String) (es : List RawEntry) (acc : List CandidateItem)
    (hacc : ∀ c ∈ acc, GoodCandidate hashLink isRecentStr sent c) :
    ∀ c ∈ processEntries hashLink isRecentStr sent es acc,
      GoodCandidate hashLink isRecentStr sent c := by
  induction es generalizing acc with
  | nil => exact fun c hc => hacc c hc
  | cons e es ih =>
    intro c hc
    unfold processEntries at hc
    by_cases h1 : entryLink e = ""
    · rw [if_pos h1] at hc
      exact ih acc hacc c hc
    · rw [if_neg h1] at hc
      by_cases h2 : hashLink (entryLink e) ∈ sent
      · rw [if_pos h2] at hc
        exact ih acc hacc c hc
      · rw [if_neg h2] at hc
        by_cases h3 : isRecentStr (entryPublished e) = false
        · rw [if_pos h3] at hc
          exact ih acc hacc c hc
        · rw [if_neg h3] at hc
          have hgood : GoodCandidate hashLink isRecentStr sent (mkCandidate hashLink e) :=
            ⟨h1, rfl, h2, eq_true_of_ne_false h3⟩
          have hacc2 : ∀ x ∈ acc ++ [mkCandidate hashLink e],
              GoodCandidate hashLink isRecentStr sent x := by
            intro x hx
            rcases List.mem_append.mp hx with hx1 | hx1
            · exact hacc x hx1
            · rw [List.mem_singleton.mp hx1]
              exact hgood
          by_cases h4 : MAX_CANDIDATES ≤ (acc ++ [mkCandidate hashLink e]).length
          · rw [if_pos h4] at hc
            exact hacc2 c hc
          · rw [if_neg h4] at hc
            exact ih _ hacc2 c hc

theorem processEntries_length (hashLink : String → String) (isRecentStr : String → Bool)
    (sent : Finset String) (es : List RawEntry) (acc : List CandidateItem)
    (h : acc.length < MAX_CANDIDATES) :
    (processEntries hashLink isRecentStr sent es acc).length ≤ MAX_CANDIDATES := by
  induction es generalizing acc with
  | nil => exact le_of_lt h
  | cons e es ih =>
    unfold processEntries
    by_cases h1 : entryLink e = ""
    · rw [if_pos h1]
      exact ih acc h
    · rw [if_neg h1]
      by_cases h2 : hashLink (entryLink e) ∈ sent
      · rw [if_pos h2]
        exact ih acc h
      · rw [if_neg h2]
        by_cases h3 : isRecentStr (entryPublished e) = false
        · rw [if_pos h3]
          exact ih acc h
        · rw [if_neg h3]
          have hlen2 : (acc ++ [mkCandidate hashLink e]).length ≤ MAX_CANDIDATES := by
            rw [List.length_append]
            simpa using h
          by_cases h4 : MAX_CANDIDATES ≤ (acc ++ [mkCandidate hashLink e]).length
          · rw [if_pos h4]
            exact hlen2
          · rw [if_neg h4]
            exact ih _ (not_le.mp h4)

theorem fetchLoop_good (hashLink : String → String) (isRecentStr : String → Bool)
    (sent : Finset String) (feeds : List (Option (List RawEntry))) (acc : List CandidateItem)
    (hacc : ∀ c ∈ acc, GoodCandidate hashLink isRecentStr sent c) :
    ∀ c ∈ fetchLoop hashLink isRecentStr sent feeds acc,
      GoodCandidate hashLink isRecentStr sent c := by
  induction feeds generalizing acc with
  | nil => exact fun c hc => hacc c hc
  | cons f rest ih =>
    cases f with
    | none => exact ih acc hacc
    | some es =>
      intro c hc
      unfold fetchLoop at hc
      have hacc2 := processEntries_good hashLink isRecentStr sent es acc hacc
      by_cases h4 : MAX_CANDIDATES ≤ (processEntries hashLink isRecentStr sent es acc).length
      · rw [if_pos h4] at hc
        exact hacc2 c hc
      · rw [if_neg h4] at hc
        exact ih _ hacc2 c hc

theorem fetchLoop_length (hashLink : String → String) (isRecentStr : String → Bool)
    (sent : Finset String) (feeds : List (Option (List RawEntry))) (acc : List CandidateItem)
    (h : acc.length < MAX_CANDIDATES) :
    (fetchLoop hashLink isRecentStr sent feeds acc).length ≤ MAX_CANDIDATES := by
  induction feeds generalizing acc with
  | nil => exact le_of_lt h
  | cons f rest ih =>
    cases f with
    | none => exact ih acc h
    | some es =>
      unfold fetchLoop
      have hlen := processEntries_length hashLink isRecentStr sent es acc h
      by_cases h4 : MAX_CANDIDATES ≤ (processEntries hashLink isRecentStr sent es acc).length
      · rw [if_pos h4]
        exact hlen
      · rw [if_neg h4]
        exact ih _ (not_le.mp h4)

theorem fetchLoop_skip_none (hashLink : String → String) (isRecentStr : String → Bool)
    (sent : Finset String) (fs1 fs2 : List (Option (List RawEntry))) (acc : List CandidateItem) :
    fetchLoop hashLink isRecentStr sent (fs1 ++ none :: fs2) acc =
      fetchLoop hashLink isRecentStr sent (fs1 ++ fs2) acc := by
  induction fs1 generalizing acc with
  | nil => rfl
  | cons f fs ih =>
    cases f with
    | none => exact ih acc
    | some es =>
      have hexp : ∀ rest, fetchLoop hashLink isRecentStr sent (some es :: rest) acc =
          if MAX_CANDIDATES ≤ (processEntries hashLink isRecentStr sent es acc).length then
            processEntries hashLink isRecentStr sent es acc
          else fetchLoop hashLink isRecentStr sent rest
            (processEntries hashLink isRecentStr sent es acc) :=
        fun rest => rfl
      rw [List.cons_append, List.cons_append, hexp, hexp]
      by_cases h4 : MAX_CANDIDATES ≤ (processEntries hashLink isRecentStr sent es acc).length
      · rw [if_pos h4, if_pos h4]
      · rw [if_neg h4, if_neg h4]
        exact ih _

/-- C6: every candidate produced by the ingestion filter has a non-empty
link, a fingerprint (the hash of its link) absent from the loaded store, and
a published string accepted by the recency test; the output is globally
capped at 30 candidates; and a failing source is skipped without aborting the
ingestion of the remaining sources. -/
theorem fetch_candidates_filtered_capped_tolerant (hashLink : String → String)
    (isRecentStr : String → Bool) (sent : Finset String)
    (feeds : List (Option (List RawEntry))) :
    (∀ c ∈ fetch_rss_entries hashLink isRecentStr sent feeds,
      c.link ≠ "" ∧ c.hash = hashLink c.link ∧ c.hash ∉ sent ∧
        isRecentStr c.published = true) ∧
    (fetch_rss_entries hashLink isRecentStr sent feeds).length ≤ MAX_CANDIDATES ∧
    (∀ fs1 fs2, feeds = fs1 ++ none :: fs2 →
      fetch_rss_entries hashLink isRecentStr sent feeds =
        fetch_rss_entries hashLink isRecentStr sent (fs1 ++ fs2)) := by
  refine ⟨?_, ?_, ?_⟩
  · exact fetchLoop_good hashLink isRecentStr sent feeds []
      (fun c hc => absurd hc (List.not_mem_nil c))
  · exact fetchLoop_length hashLink isRecentStr sent feeds [] (by decide)
  · intro fs1 fs2 hfeq
    rw [hfeq]
    exact fetchLoop_skip_none hashLink isRecentStr sent fs1 fs2 []

/-- C6 witness: one healthy source behind one failing source, empty store. -/
theorem fetch_candidates_witness :
    (∀ c ∈ fetch_rss_entries (fun s => s ++ "#") (fun _ => true) ∅
        [none, some [⟨some "L", some "p", none, some "t", some "s", none⟩]],
      c.link ≠ "" ∧ c.hash = (fun s => s ++ "#") c.link ∧ c.hash ∉ (∅ : Finset String) ∧
        (fun _ => true) c.published = true) ∧
    (fetch_rss_entries (fun s => s ++ "#") (fun _ => true) ∅
      [none, some [⟨some "L", some "p", none, some "t", some "s", none⟩]]).length ≤
      MAX_CANDIDATES := by
  have h := fetch_candidates_filtered_capped_tolerant (fun s => s ++ "#") (fun _ => true) ∅
    [none, some [⟨some "L", some "p", none, some "t", some "s", none⟩]]
  exact ⟨h.1, h.2.1⟩

/-! ## Recency filter (`is_recent`, source lines 72-81)

`dateutil.parser.parse` is external: it either fails (the source's `except`
path, -> `none`) or yields a datetime, modelled as the clock reading in
seconds-since-epoch read as UTC (`utcNaive`) plus an optional zone offset in
seconds.  `pub_time.replace(tzinfo=utc)` on a naive datetime keeps the clock
reading, an aware datetime's instant subtracts its offset.  Times are exact
rationals, covering timedelta's sub-second precision. -/

structure ParsedDatetime where
  utcNaive : Rat
  tzOffset : Option Rat
deriving DecidableEq

def tzAdjust (pd : ParsedDatetime) : Rat :=
  match pd.tzOffset with
  | none => pd.utcNaive
  | some off => pd.utcNaive - off

def is_recent (parse : String → Option ParsedDatetime) (now : Rat)
    (published_str : String) (hours : Int) : Bool :=
  match parse published_str with
  | none => false
  | some pd => decide (now - tzAdjust pd ≤ (hours : Rat) * 3600)

/-- C7: the 48-hour window boundary is inclusive (an item exactly 48 hours
old is accepted), anything strictly older is rejected, a zoneless timestamp
is interpreted as UTC (its instant is the bare clock reading), and
unparseable date text yields `false` instead of raising. -/
theorem is_recent_boundary_and_utc (parse : String → Option ParsedDatetime)
    (now : Rat) (s : String) :
    (∀ pd, parse s = some pd → now - tzAdjust pd = (HOURS_WINDOW : Rat) * 3600 →
      is_recent parse now s HOURS_WINDOW = true) ∧
    (∀ pd, parse s = some pd → (HOURS_WINDOW : Rat) * 3600 < now - tzAdjust pd →
      is_recent parse now s HOURS_WINDOW = false) ∧
    (∀ t, parse s = some ⟨t, none⟩ →
      is_recent parse now s HOURS_WINDOW =
        decide (now - t ≤ (HOURS_WINDOW : Rat) * 3600)) ∧
    (parse s = none → is_recent parse now s HOURS_WINDOW = false) := by
  refine ⟨?_, ?_, ?_, ?_⟩
  · intro pd hp hb
    unfold is_recent
    rw [hp]
    show decide (now - tzAdjust pd ≤ (HOURS_WINDOW : Rat) * 3600) = true
    rw [hb]
    simp
  · intro pd hp hb
    unfold is_recent
    rw [hp]
    show decide (now - tzAdjust pd ≤ (HOURS_WINDOW : Rat) * 3600) = false
    simp only [decide_eq_false_iff_not, not_le]
    exact hb
  · intro t hp
    unfold is_recent
    rw [hp]
    exact rfl
  · intro hp
    unfold is_recent
    rw [hp]

/-- C7 witness: a zoneless timestamp sitting exactly on the 48-hour edge is
accepted. -/
theorem is_recent_witness :
    ((fun _ : String => some (⟨0, none⟩ : ParsedDatetime)) "x" =
      some (⟨0, none⟩ : ParsedDatetime)) ∧
    ((172800 : Rat) - tzAdjust ⟨0, none⟩ = (HOURS_WINDOW : Rat) * 3600) ∧
    is_recent (fun _ => some ⟨0, none⟩) 172800 "x" HOURS_WINDOW = true := by
  have hb : (172800 : Rat) - tzAdjust ⟨0, none⟩ = (HOURS_WINDOW : Rat) * 3600 := by
    norm_num [tzAdjust, HOURS_WINDOW]
  exact ⟨rfl, hb,
    (is_recent_boundary_and_utc (fun _ => some ⟨0, none⟩) 172800 "x").1 ⟨0, none⟩ rfl hb⟩

/-! ## Delivery retry loop (`send_to_feishu`, source lines 543-558)

One attempt either raises inside the `try` (transport error, HTTP error
status from `raise_for_status`, or an unparseable body — `exn`), or parses a
response whose application-level `code` is non-zero (`appFail`), or succeeds
(`success`).  `time.sleep(2 ** attempt)` runs only in the `except` branch and
only when `attempt < 2`; the loop makes at most 3 attempts and the function
returns normally in every case. -/

inductive AttemptOutcome where
  | exn : AttemptOutcome
  | appFail : AttemptOutcome
  | success : AttemptOutcome
deriving DecidableEq

structure SendTrace where
  attemptsMade : Nat
  sleeps : List Nat
  delivered : Bool
deriving DecidableEq

def sendLoopFrom (outcome : Nat → AttemptOutcome) :
    Nat → Nat → List Nat → SendTrace
  | 0, attempt, sleeps => ⟨attempt, sleeps.reverse, false⟩
  | fuel + 1, attempt, sleeps =>
    match outcome attempt with
    | .success => ⟨attempt + 1, sleeps.reverse, true⟩
    | .appFail => sendLoopFrom outcome fuel (attempt + 1) sleeps
    | .exn =>
      if attempt < 2 then sendLoopFrom outcome fuel (attempt + 1) (2 ^ attempt :: sleeps)
      else sendLoopFrom outcome fuel (attempt + 1) sleeps

def send_to_feishu_retry (outcome : Nat → AttemptOutcome) : SendTrace :=
  sendLoopFrom outcome 3 0 []

/-- Backoff the source performs after a failed attempt: `2 ** attempt`
seconds, but only for raising attempts (the `except` branch). -/
def backoffOf (attempt : Nat) (a : AttemptOutcome) : List Nat :=
  if a = AttemptOutcome.exn then [2 ^ attempt] else []

/-- C5 (amended): delivery makes up to 3 attempts, stopping at the first
success; a failed attempt before the last is followed by an exponentially
increasing backoff (1s then 2s) only when it failed with a raised transport
error — a non-success application-level response retries immediately with no
delay; exhausting all attempts yields a logged terminal failure and a normal
return, never an exception.  (The unrestricted backoff claim is refuted by
`send_retry_no_backoff_on_app_failure`.) -/
theorem send_retry_schedule_amended (o : Nat → AttemptOutcome) :
    (send_to_feishu_retry o).attemptsMade ≤ 3 ∧
    ((send_to_feishu_retry o).delivered = true ↔
      o 0 = .success ∨ (o 0 ≠ .success ∧ o 1 = .success) ∨
      (o 0 ≠ .success ∧ o 1 ≠ .success ∧ o 2 = .success)) ∧
    (o 0 = .success → send_to_feishu_retry o = ⟨1, [], true⟩) ∧
    (o 0 ≠ .success → o 1 = .success →
      send_to_feishu_retry o = ⟨2, backoffOf 0 (o 0), true⟩) ∧
    (o 0 ≠ .success → o 1 ≠ .success → o 2 = .success →
      send_to_feishu_retry o = ⟨3, backoffOf 0 (o 0) ++ backoffOf 1 (o 1), true⟩) ∧
    (o 0 ≠ .success → o 1 ≠ .success → o 2 ≠ .success →
      send_to_feishu_retry o = ⟨3, backoffOf 0 (o 0) ++ backoffOf 1 (o 1), false⟩) := by
  rcases h0 : o 0 with _ | _ | _ <;> rcases h1 : o 1 with _ | _ | _ <;>
    rcases h2 : o 2 with _ | _ | _ <;>
    simp [send_to_feishu_retry, sendLoopFrom, backoffOf, h0, h1, h2]

/-- C5 counterexample: three application-level failures (`code != 0` every
time) exhaust the retries with *no* backoff at all — the claimed 1s/2s delays
`[1, 2]` never happen, because `time.sleep` lives only in the `except`
branch. -/
theorem send_retry_no_backoff_on_app_failure :
    (send_to_feishu_retry (fun _ => AttemptOutcome.appFail)).sleeps = [] ∧
    (send_to_feishu_retry (fun _ => AttemptOutcome.appFail)).attemptsMade = 3 ∧
    (send_to_feishu_retry (fun _ => AttemptOutcome.appFail)).delivered = false ∧
    (send_to_feishu_retry (fun _ => AttemptOutcome.appFail)).sleeps ≠ [1, 2] := by
  exact ⟨rfl, rfl, rfl, by decide⟩

/-- C5 witness: three raised attempts produce exactly the 1s and 2s backoffs
and a terminal failure after 3 attempts. -/
theorem send_retry_schedule_witness :
    ((fun _ : Nat => AttemptOutcome.exn) 0 ≠ AttemptOutcome.success) ∧
    ((fun _ : Nat => AttemptOutcome.exn) 1 ≠ AttemptOutcome.success) ∧
    ((fun _ : Nat => AttemptOutcome.exn) 2 ≠ AttemptOutcome.success) ∧
    send_to_feishu_retry (fun _ => AttemptOutcome.exn) =
      ⟨3, backoffOf 0 ((fun _ : Nat => AttemptOutcome.exn) 0) ++
        backoffOf 1 ((fun _ : Nat => AttemptOutcome.exn) 1), false⟩ := by
  refine ⟨by decide, by decide, by decide, ?_⟩
  exact (send_retry_schedule_amended (fun _ => AttemptOutcome.exn)).2.2.2.2.2
    (by decide) (by decide) (by decide)

/-! ## Delivery signature (`send_to_feishu`, source lines 410-419)

SHA-256 itself is an external collaborator (hashlib); the HMAC construction
(Python's `hmac` module, RFC 2104 with a 64-byte block) and standard base64
are spelled out.  `hmac.new(string_to_sign.encode("utf-8"),
digestmod=hashlib.sha256)` keys the HMAC on `f"{timestamp}\n{secret}"` and
hashes the *empty* message. -/

def utf8Bytes (s : String) : List Nat := s.toUTF8.toList.map (fun b => b.toNat)

def hmacBlockSize : Nat := 64

def hmacSha256 (sha256 : List Nat → List Nat) (key msg : List Nat) : List Nat :=
  let key1 := if hmacBlockSize < key.length then sha256 key else key
  let key0 := key1 ++ List.replicate (hmacBlockSize - key1.length) 0
  sha256 ((key0.map (fun b => b ^^^ 92)) ++ sha256 ((key0.map (fun b => b ^^^ 54)) ++ msg))

def base64Chars : List Char :=
  "ABCDEFGHIJKLMNOPQRSTUVWXYZabcdefghijklmnopqrstuvwxyz0123456789+/".toList

def b64Char (n : Nat) : Char := base64Chars.getD n 'A'

def b64encode : List Nat → String
  | [] => ""
  | [a] => String.mk [b64Char (a / 4), b64Char (a % 4 * 16), '=', '=']
  | [a, b] => String.mk [b64Char (a / 4), b64Char (a % 4 * 16 + b / 16),
      b64Char (b % 16 * 4), '=']
  | a :: b :: c :: rest =>
    String.mk [b64Char (a / 4), b64Char (a % 4 * 16 + b / 16),
      b64Char (b % 16 * 4 + c / 64), b64Char (c % 64)] ++ b64encode rest

/-- The `sign` value placed in the delivery payload: empty when no secret is
configured, otherwise the base64-encoded HMAC digest. -/
def send_to_feishu_sign (sha256 : List Nat → List Nat) (timestamp secret : String) : String :=
  if secret = "" then ""
  else b64encode (hmacSha256 sha256 (utf8Bytes (timestamp ++ "\n" ++ secret)) [])

/-- C9: with a configured secret the delivery signature equals the base64
encoding of the HMAC-SHA256 digest whose key is the concatenation of the
current Unix timestamp, a newline and the secret (and whose message is
empty); with no secret configured the payload's `sign` field is the empty
string. -/
theorem feishu_sign_spec (sha256 : List Nat → List Nat) (timestamp secret : String) :
    (secret ≠ "" → send_to_feishu_sign sha256 timestamp secret =
      b64encode (hmacSha256 sha256 (utf8Bytes (timestamp ++ "\n" ++ secret)) [])) ∧
    (secret = "" → send_to_feishu_sign sha256 timestamp secret = "") := by
  constructor
  · intro h
    unfold send_to_feishu_sign
    rw [if_neg h]
  · intro h
    unfold send_to_feishu_sign
    rw [if_pos h]

/-- C9 witness: the signing equation instantiated at a concrete timestamp,
secret and hash function. -/
theorem feishu_sign_witness :
    ("secret" ≠ "") ∧
    send_to_feishu_sign (fun l => l) "1700000000" "secret" =
      b64encode (hmacSha256 (fun l => l)
        (utf8Bytes ("1700000000" ++ "\n" ++ "secret")) []) :=
  ⟨by decide, (feishu_sign_spec (fun l => l) "1700000000" "secret").1 (by decide)⟩

/-! ## Orchestrator commit (`main`, source lines 582-590)

After a non-empty scoring selection the orchestrator sends the report and
then unconditionally re-loads the store, adds the selected entries'
fingerprints and saves the union — the delivery outcome is not consulted.
`save_sent_hashes` writes the set sorted, so the persisted state is exactly
this `Finset`. -/

def mainCommit (oldStore : Finset String) (candidates : List CandidateItem)
    (scores : List ScoreItem) (_deliveryOk : Bool) : Finset String :=
  if candidates.isEmpty then oldStore
  else if (score_entries candidates scores).isEmpty then oldStore
  else oldStore ∪ ((score_entries candidates scores).map (fun e => e.hash)).toFinset

/-- C4: whenever scoring succeeds with a non-empty top selection, the store
after the run is the old store plus exactly the selected entries'
fingerprints, the same for a successful and for a failed delivery; and the
store is always append-only (a superset of the old one). -/
theorem commit_adds_exactly_top_fingerprints (oldStore : Finset String)
    (candidates : List CandidateItem) (scores : List ScoreItem) (b : Bool)
    (h : score_entries candidates scores ≠ []) :
    mainCommit oldStore candidates scores b =
      oldStore ∪ ((score_entries candidates scores).map (fun e => e.hash)).toFinset ∧
    mainCommit oldStore candidates scores b = mainCommit oldStore candidates scores (!b) ∧
    oldStore ⊆ mainCommit oldStore candidates scores b ∧
    (∀ st cs ss b2, st ⊆ mainCommit st cs ss b2) := by
  have hcne : candidates.isEmpty = false := by
    cases candidates with
    | nil => exact absurd rfl h
    | cons a as => rfl
  have hue : (score_entries candidates scores).isEmpty = false := by
    cases hse : score_entries candidates scores with
    | nil => exact absurd hse h
    | cons x xs => rfl
  have hsub : ∀ st cs ss (b2 : Bool), st ⊆ mainCommit st cs ss b2 := by
    intro st cs ss b2
    unfold mainCommit
    by_cases h1 : cs.isEmpty = true
    · rw [if_pos h1]
    · rw [if_neg h1]
      by_cases h2 : (score_entries cs ss).isEmpty = true
      · rw [if_pos h2]
      · rw [if_neg h2]
        exact Finset.subset_union_left
  refine ⟨?_, rfl, hsub _ _ _ _, hsub⟩
  unfold mainCommit
  rw [hcne, hue]
  simp

/-- C4 witness: a one-candidate, one-score run commits exactly that
candidate's fingerprint on top of the old store. -/
theorem commit_adds_witness :
    (score_entries [⟨"t1", "L", "s1", "p1", "h1"⟩] [⟨"L", 8, "ok"⟩] ≠ []) ∧
    mainCommit {"old"} [⟨"t1", "L", "s1", "p1", "h1"⟩] [⟨"L", 8, "ok"⟩] true =
      {"old"} ∪ ((score_entries [⟨"t1", "L", "s1", "p1", "h1"⟩] [⟨"L", 8, "ok"⟩]).map
        (fun e => e.hash)).toFinset := by
  have h : score_entries [⟨"t1", "L", "s1", "p1", "h1"⟩] [⟨"L", 8, "ok"⟩] ≠ [] := by decide
  exact ⟨h, (commit_adds_exactly_top_fingerprints {"old"} _ _ true h).1⟩
